import Mathlib

/-!
Verification of the semver-cli semantic-version engine.

The repository consists of a thin CLI shell (`src/main.go`) over a semantic
versioning library (`github.com/Masterminds/semver/v3`, a dependency whose
source is not part of this repository's tree).  The shell logic in
`src/main.go` (command dispatch, filtering for `greatest`, the selection of
the last element of the sorted slice) is embedded directly from the source.
The library operations (version parsing, comparison, increment, set,
constraint parsing and validation) are modelled from the specification,
as marked on each definition.
-/

deriving instance DecidableEq for Except

namespace Semver

/-! ## Character and list utilities used by the parsing model -/

/-- Splits a character list at every character satisfying `p`; the separators
are dropped.  Always returns a non-empty list of (possibly empty) segments,
mirroring the behaviour of `strings.Split`. -/
def splitOnP (p : Char → Bool) : List Char → List (List Char)
  | [] => [[]]
  | c :: cs =>
    if p c then [] :: splitOnP p cs
    else
      match splitOnP p cs with
      | [] => [[c]]
      | r :: rs => (c :: r) :: rs

/-- Splits a character list at the first occurrence of `c`.  The first
component is everything before it; the second is `some` remainder (without
the separator) when `c` occurs, `none` otherwise. -/
def breakAtChar (c : Char) : List Char → List Char × Option (List Char)
  | [] => ([], none)
  | x :: xs =>
    if x == c then ([], some xs)
    else
      match breakAtChar c xs with
      | (l, r) => (x :: l, r)

/-- Joins segments with a dot separator, the inverse of splitting on `'.'`. -/
def joinDotted : List (List Char) → List Char
  | [] => []
  | [x] => x
  | x :: xs => x ++ '.' :: joinDotted xs

/-! ## Data model

Modelled from the spec: `Version` is the immutable value
`{major, minor, patch, prerelease, build-metadata}` (spec section 3); the
prerelease and build-metadata fields are ordered sequences of dot-separated
identifiers, where the empty sequence means the field is absent. -/

/-- Version value: numeric core plus prerelease / build-metadata identifier
sequences (each identifier is kept as its character list). -/
structure Version where
  major : Nat
  minor : Nat
  patch : Nat
  prerelease : List (List Char)
  metadata : List (List Char)
deriving DecidableEq

/-- Structured error kinds of the engine (spec section 7). -/
inductive ParseErr where
  | invalidFormat
  | invalidIdentifier
  | invalidConstraint
  | unknownComponent
deriving DecidableEq

/-- `true` iff the character is allowed inside a prerelease or build
identifier: ASCII alphanumerics and hyphen. -/
def isIdentChar (c : Char) : Bool :=
  c.isAlpha || c.isDigit || c == '-'

/-- `true` iff the identifier is a non-empty string of ASCII digits. -/
def isNumStr (ds : List Char) : Bool :=
  !ds.isEmpty && ds.all (fun c => c.isDigit)

/-- `true` iff the identifier does not start with a redundant leading zero:
either it does not start with `'0'`, or it is exactly `"0"`. -/
def noLeadZero (ds : List Char) : Bool :=
  decide (ds.head? ≠ some '0') || decide (ds.length = 1)

/-- Valid alphanumeric/hyphen identifier (build metadata grammar): non-empty,
all characters allowed. -/
def validIdent (ds : List Char) : Bool :=
  !ds.isEmpty && ds.all isIdentChar

/-- Valid prerelease identifier: additionally, a numeric identifier may not
have a leading zero (spec section 3). -/
def validPreIdent (ds : List Char) : Bool :=
  validIdent ds && (!isNumStr ds || noLeadZero ds)

/-- A `Version` value that satisfies the grammar constraints on its stored
identifiers (spec section 3: per-identifier character and leading-zero
rules). -/
def validVersion (v : Version) : Bool :=
  v.prerelease.all validPreIdent && v.metadata.all validIdent

/-- Numeric value of a digit character. -/
def digitVal (c : Char) : Nat := c.toNat - 48

/-- Exact (arbitrary-precision) value of a big-endian digit string. -/
def digitsVal : List Char → Nat
  | [] => 0
  | c :: cs => digitVal c * 10 ^ cs.length + digitsVal cs

/-! ## Version parsing

Modelled from the spec: `parse(text) -> Version | ParseError` with grammar
`^v?(0|[1-9]\d*)\.(0|[1-9]\d*)\.(0|[1-9]\d*)(-[0-9A-Za-z.-]+)?(\+[0-9A-Za-z.-]+)?$`,
a per-identifier leading-zero rule for numeric prerelease identifiers, empty
identifiers between dots rejected (spec section 4.1), and explicit overflow
detection for the fixed-width (64-bit) numeric core components (spec
section 9, design note on arbitrary precision: reject rather than wrap).
All failures are `InvalidFormat`.  The `'+'` split is taken first and the
`'-'` split second, which is exact for this grammar because `'+'` occurs in
no production before the build metadata and `'-'` occurs in none before the
prerelease. -/

/-- Strips one leading `'v'`, the optional prefix admitted by the grammar. -/
def stripLeadingV : List Char → List Char
  | 'v' :: rest => rest
  | cs => cs

/-- Parses one numeric core component: `(0|[1-9]\d*)`, with overflow beyond
the 64-bit range rejected rather than wrapped. -/
def parseNumComponent (ds : List Char) : Except ParseErr Nat :=
  if isNumStr ds && noLeadZero ds then
    if digitsVal ds < 2 ^ 64 then .ok (digitsVal ds) else .error .invalidFormat
  else .error .invalidFormat

/-- Parses a dot-separated prerelease identifier sequence. -/
def parsePreIdents (cs : List Char) : Except ParseErr (List (List Char)) :=
  if (splitOnP (fun c => c == '.') cs).all validPreIdent then
    .ok (splitOnP (fun c => c == '.') cs)
  else .error .invalidFormat

/-- Parses a dot-separated build-metadata identifier sequence. -/
def parseBuildIdents (cs : List Char) : Except ParseErr (List (List Char)) :=
  if (splitOnP (fun c => c == '.') cs).all validIdent then
    .ok (splitOnP (fun c => c == '.') cs)
  else .error .invalidFormat

/-- The `major.minor.patch` core of the input, split at the dots: everything
up to the first `'-'` of everything up to the first `'+'` (those characters
occur in no grammar production before the prerelease, respectively the build
metadata, so the first occurrence is the delimiter in every grammar
match). -/
def coreSegments (cs : List Char) : List (List Char) :=
  splitOnP (fun c => c == '.') (breakAtChar '-' (breakAtChar '+' (stripLeadingV cs)).1).1

/-- The prerelease segment of the input (without its leading `'-'`), when
present. -/
def preSegment (cs : List Char) : Option (List Char) :=
  (breakAtChar '-' (breakAtChar '+' (stripLeadingV cs)).1).2

/-- The build-metadata segment of the input (without its leading `'+'`),
when present. -/
def buildSegment (cs : List Char) : Option (List Char) :=
  (breakAtChar '+' (stripLeadingV cs)).2

/-- Version parsing on a character list. -/
def parseVersionChars (cs : List Char) : Except ParseErr Version :=
  match coreSegments cs with
  | [ma, mi, pa] => do
    let major ← parseNumComponent ma
    let minor ← parseNumComponent mi
    let patch ← parseNumComponent pa
    let pre ← match preSegment cs with
      | none => pure []
      | some s => parsePreIdents s
    let build ← match buildSegment cs with
      | none => pure []
      | some s => parseBuildIdents s
    pure ⟨major, minor, patch, pre, build⟩
  | _ => .error .invalidFormat

/-- Version parsing on a string (the `parse` operation of spec section 4.1 /
`semver.NewVersion` as the spec describes it). -/
def parseVersion (s : String) : Except ParseErr Version :=
  parseVersionChars s.data

/-! ## Rendering -/

/-- Decimal rendering of a natural number. -/
def renderNat (n : Nat) : List Char := Nat.toDigits 10 n

/-- Canonical rendering `major.minor.patch[-prerelease][+build]`
(spec section 3). -/
def render (v : Version) : String :=
  ⟨renderNat v.major ++ '.' :: renderNat v.minor ++ '.' :: renderNat v.patch
    ++ (if v.prerelease.isEmpty then [] else '-' :: joinDotted v.prerelease)
    ++ (if v.metadata.isEmpty then [] else '+' :: joinDotted v.metadata)⟩

/-! ## The version grammar as a predicate

Modelled from the spec: an executable decision procedure for the anchored
regular expression
`^v?(0|[1-9]\d*)\.(0|[1-9]\d*)\.(0|[1-9]\d*)(-[0-9A-Za-z.-]+)?(\+[0-9A-Za-z.-]+)?$`
(spec section 4.1).  It reuses the first-`'+'`/first-`'-'` decomposition,
which is exact for this grammar: `'+'` occurs in no production before the
build metadata and `'-'` occurs in none before the prerelease, so in every
string of the language the delimiters are the first occurrences. -/

/-- Matches `(0|[1-9]\d*)`. -/
def numCoreMatch (ds : List Char) : Bool :=
  isNumStr ds && noLeadZero ds

/-- Matches `[0-9A-Za-z.-]+`, the raw prerelease / build-metadata segment of
the grammar. -/
def dottedSegMatch (cs : List Char) : Bool :=
  !cs.isEmpty && cs.all (fun c => c.isAlpha || c.isDigit || c == '.' || c == '-')

/-- Decision of the whole anchored version grammar. -/
def matchesVersionGrammar (cs : List Char) : Bool :=
  (match coreSegments cs with
   | [ma, mi, pa] => numCoreMatch ma && numCoreMatch mi && numCoreMatch pa
   | _ => false) &&
  (match preSegment cs with
   | none => true
   | some s => dottedSegMatch s) &&
  (match buildSegment cs with
   | none => true
   | some s => dottedSegMatch s)

/-! ## Comparison

Modelled from the spec (section 4.1 `compare`): compare major, then minor,
then patch numerically; if the cores are equal, a release version (no
prerelease) is greater than any prerelease of the same core; among two
prereleases compare identifier by identifier left to right, numeric
identifiers numerically, a numeric identifier below any alphanumeric one,
alphanumeric identifiers lexicographically, and when the counts differ with
all shared identifiers equal, fewer identifiers is smaller.  Build metadata
never participates. -/

/-- Three-way comparison induced by a linear order. -/
def cmpLin {α : Type} [LinearOrder α] (a b : α) : Ordering :=
  if a < b then .lt else if a = b then .eq else .gt

/-- Lexicographic list comparison: the shorter list is smaller when all
shared positions compare equal. -/
def cmpList (f : α → α → Ordering) : List α → List α → Ordering
  | [], [] => .eq
  | [], _ :: _ => .lt
  | _ :: _, [] => .gt
  | a :: as, b :: bs => (f a b).then (cmpList f as bs)

/-- Comparison of single prerelease identifiers: numeric identifiers compare
by value, a numeric identifier is below any alphanumeric one, and
alphanumeric identifiers compare lexicographically by character. -/
def cmpIdent (a b : List Char) : Ordering :=
  if isNumStr a then
    if isNumStr b then cmpLin (digitsVal a) (digitsVal b) else .lt
  else
    if isNumStr b then .gt else cmpList cmpLin a b

/-- Comparison of prerelease identifier sequences: an absent prerelease
(release version) is above any prerelease; two present prereleases compare
lexicographically by identifier. -/
def cmpPre : List (List Char) → List (List Char) → Ordering
  | [], [] => .eq
  | [], _ :: _ => .gt
  | _ :: _, [] => .lt
  | as, bs => cmpList cmpIdent as bs

/-- Combinator: compare with `f` first, break ties with `g`. -/
def cmpThen (f g : α → α → Ordering) (a b : α) : Ordering :=
  (f a b).then (g a b)

/-- Combinator: compare the images under a projection. -/
def cmpOn (h : β → α) (f : α → α → Ordering) (a b : β) : Ordering :=
  f (h a) (h b)

/-- The `compare` operation of spec section 4.1: major, then minor, then
patch, then the prerelease rule; build metadata never participates. -/
def compareVersions : Version → Version → Ordering :=
  cmpThen (cmpOn Version.major cmpLin)
    (cmpThen (cmpOn Version.minor cmpLin)
      (cmpThen (cmpOn Version.patch cmpLin)
        (cmpOn Version.prerelease cmpPre)))

/-! ### Lawfulness of the comparators -/

theorem cmpLin_eq_lt {α : Type} [LinearOrder α] {a b : α} :
    cmpLin a b = .lt ↔ a < b := by
  unfold cmpLin
  rcases lt_trichotomy a b with h | h | h
  · simp [h]
  · simp [h, lt_irrefl]
  · simp [not_lt_of_gt h, ne_of_gt h, not_lt_of_gt, h]

theorem cmpLin_eq_eq {α : Type} [LinearOrder α] {a b : α} :
    cmpLin a b = .eq ↔ a = b := by
  unfold cmpLin
  rcases lt_trichotomy a b with h | h | h
  · simp [h, ne_of_lt h]
  · simp [h, lt_irrefl]
  · simp [not_lt_of_gt h, ne_of_gt h]

theorem cmpLin_eq_gt {α : Type} [LinearOrder α] {a b : α} :
    cmpLin a b = .gt ↔ b < a := by
  unfold cmpLin
  rcases lt_trichotomy a b with h | h | h
  · simp [h, asymm h]
  · simp [h, lt_irrefl]
  · simp [not_lt_of_gt h, ne_of_gt h, h]

instance {α : Type} [LinearOrder α] : Batteries.OrientedCmp (cmpLin (α := α)) where
  symm a b := by
    rcases lt_trichotomy a b with h | h | h
    · rw [cmpLin_eq_lt.2 h, (by rw [cmpLin_eq_gt]; exact h : cmpLin b a = .gt)]
      rfl
    · rw [cmpLin_eq_eq.2 h, (by rw [cmpLin_eq_eq]; exact h.symm : cmpLin b a = .eq)]
      rfl
    · rw [cmpLin_eq_gt.2 h, (by rw [cmpLin_eq_lt]; exact h : cmpLin b a = .lt)]
      rfl

instance {α : Type} [LinearOrder α] : Batteries.TransCmp (cmpLin (α := α)) where
  le_trans {x y z} h1 h2 := by
    rw [Ne, cmpLin_eq_gt] at h1 h2 ⊢
    rw [not_lt] at h1 h2 ⊢
    exact h1.trans h2
  symm := Batteries.OrientedCmp.symm

theorem cmpList_swap (f : α → α → Ordering) [Batteries.OrientedCmp f] :
    ∀ (xs ys : List α), (cmpList f xs ys).swap = cmpList f ys xs
  | [], [] => rfl
  | [], _ :: _ => rfl
  | _ :: _, [] => rfl
  | a :: as, b :: bs => by
    simp only [cmpList, Ordering.swap_then]
    rw [Batteries.OrientedCmp.symm a b, cmpList_swap f as bs]

instance (f : α → α → Ordering) [Batteries.OrientedCmp f] :
    Batteries.OrientedCmp (cmpList f) where
  symm a b := cmpList_swap f a b

theorem cmpList_le_trans (f : α → α → Ordering) [Batteries.TransCmp f] :
    ∀ (xs ys zs : List α), cmpList f xs ys ≠ .gt → cmpList f ys zs ≠ .gt →
      cmpList f xs zs ≠ .gt
  | [], _, [] => fun _ _ => by simp [cmpList]
  | [], _, _ :: _ => fun _ _ => by
    cases ‹List α› <;> simp [cmpList]
  | _ :: _, [], _ => fun h1 _ => absurd rfl h1
  | _ :: _, _ :: _, [] => fun _ h2 => absurd rfl h2
  | x :: xs, y :: ys, z :: zs => fun h1 h2 => by
    simp only [cmpList, Ne, Ordering.then_eq_gt, not_or, not_and] at h1 h2 ⊢
    obtain ⟨h1a, h1b⟩ := h1
    obtain ⟨h2a, h2b⟩ := h2
    cases e1 : f x y with
    | gt => exact absurd e1 h1a
    | lt =>
      cases e2 : f y z with
      | gt => exact absurd e2 h2a
      | lt =>
        have : f x z = .lt := Batteries.TransCmp.lt_trans e1 e2
        simp [this]
      | eq =>
        have : f x z = .lt := by
          rw [← Batteries.TransCmp.cmp_congr_right e2]
          exact e1
        simp [this]
    | eq =>
      cases e2 : f y z with
      | gt => exact absurd e2 h2a
      | lt =>
        have : f x z = .lt := by
          rw [Batteries.TransCmp.cmp_congr_left e1]
          exact e2
        simp [this]
      | eq =>
        have hxz : f x z = .eq := by
          rw [Batteries.TransCmp.cmp_congr_left e1]
          exact e2
        have htail := cmpList_le_trans f xs ys zs (h1b e1) (h2b e2)
        simp only [hxz]
        constructor
        · simp
        · intro _
          exact htail

instance (f : α → α → Ordering) [Batteries.TransCmp f] :
    Batteries.TransCmp (cmpList f) where
  le_trans := cmpList_le_trans f _ _ _
  symm a b := cmpList_swap f a b

instance : Batteries.OrientedCmp cmpIdent where
  symm a b := by
    unfold cmpIdent
    by_cases ha : isNumStr a = true <;> by_cases hb : isNumStr b = true <;>
      simp only [ha, hb, if_true, if_false, Bool.not_eq_true] <;>
      first
      | rfl
      | exact Batteries.OrientedCmp.symm _ _
      | exact cmpList_swap cmpLin a b

instance : Batteries.TransCmp cmpIdent where
  symm := Batteries.OrientedCmp.symm
  le_trans {x y z} h1 h2 := by
    unfold cmpIdent at h1 h2 ⊢
    by_cases hx : isNumStr x = true <;> by_cases hy : isNumStr y = true <;>
      by_cases hz : isNumStr z = true <;> simp [hx, hy, hz] at h1 h2 ⊢ <;>
      first
      | trivial
      | exact Batteries.TransCmp.le_trans h1 h2

instance : Batteries.OrientedCmp cmpPre where
  symm a b := by
    cases a with
    | nil =>
      cases b with
      | nil => rfl
      | cons bh bt => rfl
    | cons ah at_ =>
      cases b with
      | nil => rfl
      | cons bh bt => exact cmpList_swap cmpIdent (ah :: at_) (bh :: bt)

instance : Batteries.TransCmp cmpPre where
  symm := Batteries.OrientedCmp.symm
  le_trans {x y z} h1 h2 := by
    cases x with
    | nil =>
      cases y with
      | nil =>
        cases z with
        | nil => exact h2
        | cons zh zt => exact absurd rfl h2
      | cons yh yt => exact absurd rfl h1
    | cons xh xt =>
      cases y with
      | nil =>
        cases z with
        | nil => simp [cmpPre]
        | cons zh zt => exact absurd rfl h2
      | cons yh yt =>
        cases z with
        | nil => simp [cmpPre]
        | cons zh zt =>
          exact cmpList_le_trans cmpIdent (xh :: xt) (yh :: yt) (zh :: zt) h1 h2

instance (f g : α → α → Ordering) [Batteries.OrientedCmp f]
    [Batteries.OrientedCmp g] : Batteries.OrientedCmp (cmpThen f g) where
  symm a b := by
    unfold cmpThen
    rw [Ordering.swap_then, Batteries.OrientedCmp.symm a b,
      Batteries.OrientedCmp.symm a b]

instance (f g : α → α → Ordering) [Batteries.TransCmp f]
    [Batteries.TransCmp g] : Batteries.TransCmp (cmpThen f g) where
  symm := Batteries.OrientedCmp.symm
  le_trans {x y z} h1 h2 := by
    unfold cmpThen at h1 h2 ⊢
    simp only [Ne, Ordering.then_eq_gt, not_or, not_and] at h1 h2 ⊢
    obtain ⟨h1a, h1b⟩ := h1
    obtain ⟨h2a, h2b⟩ := h2
    cases e1 : f x y with
    | gt => exact absurd e1 h1a
    | lt =>
      cases e2 : f y z with
      | gt => exact absurd e2 h2a
      | lt =>
        have h3 : f x z = .lt := Batteries.TransCmp.lt_trans e1 e2
        simp [h3]
      | eq =>
        have h3 : f x z = .lt := by
          rw [← Batteries.TransCmp.cmp_congr_right e2]
          exact e1
        simp [h3]
    | eq =>
      cases e2 : f y z with
      | gt => exact absurd e2 h2a
      | lt =>
        have h3 : f x z = .lt := by
          rw [Batteries.TransCmp.cmp_congr_left e1]
          exact e2
        simp [h3]
      | eq =>
        have hxz : f x z = .eq := by
          rw [Batteries.TransCmp.cmp_congr_left e1]
          exact e2
        have htail := @Batteries.TransCmp.le_trans _ g _ _ _ _ (h1b e1) (h2b e2)
        simp only [hxz]
        constructor
        · simp
        · intro _
          exact htail

instance (h : β → α) (f : α → α → Ordering) [Batteries.OrientedCmp f] :
    Batteries.OrientedCmp (cmpOn h f) where
  symm a b := Batteries.OrientedCmp.symm (h a) (h b)

instance (h : β → α) (f : α → α → Ordering) [Batteries.TransCmp f] :
    Batteries.TransCmp (cmpOn h f) where
  symm a b := Batteries.OrientedCmp.symm (h a) (h b)
  le_trans h1 h2 := @Batteries.TransCmp.le_trans _ f _ _ _ _ h1 h2

instance : Batteries.TransCmp compareVersions :=
  inferInstanceAs (Batteries.TransCmp
    (cmpThen (cmpOn Version.major cmpLin)
      (cmpThen (cmpOn Version.minor cmpLin)
        (cmpThen (cmpOn Version.patch cmpLin)
          (cmpOn Version.prerelease cmpPre)))))

/-! ## Derived comparison operations

Modelled from the spec (section 4.1): `greaterThan`, `lessThan`, `equal`
derive from `compare`. -/

/-- `a > b` test derived from `compare`. -/
def greaterThan (a b : Version) : Bool := decide (compareVersions a b = .gt)

/-- `a < b` test derived from `compare`. -/
def lessThan (a b : Version) : Bool := decide (compareVersions a b = .lt)

/-- `a == b` test derived from `compare` (build metadata never
participates). -/
def equalVer (a b : Version) : Bool := decide (compareVersions a b = .eq)

/-! ## Field-level mutation

Modelled from the spec (section 4.1): `incMajor/incMinor/incPatch` increment
the named component by 1, zero every lower-significance component and clear
prerelease and build metadata unconditionally; `setPrerelease(text)` /
`setMetadata(text)` validate `text` against the identifier grammar of the
field and return a new Version with the field replaced, failing with
`InvalidIdentifier` on violation; an empty `text` stores the empty identifier
sequence, which per the data model (spec section 3) means the field is
absent. -/

/-- Increment the major component (stabilize semantics). -/
def incMajor (v : Version) : Version := ⟨v.major + 1, 0, 0, [], []⟩

/-- Increment the minor component (stabilize semantics). -/
def incMinor (v : Version) : Version := ⟨v.major, v.minor + 1, 0, [], []⟩

/-- Increment the patch component (stabilize semantics). -/
def incPatch (v : Version) : Version := ⟨v.major, v.minor, v.patch + 1, [], []⟩

/-- Replace the prerelease field; the empty string clears it. -/
def setPrerelease (v : Version) (value : String) : Except ParseErr Version :=
  if value = "" then .ok { v with prerelease := [] }
  else
    match parsePreIdents value.data with
    | .ok ids => .ok { v with prerelease := ids }
    | .error _ => .error .invalidIdentifier

/-- Replace the build-metadata field; the empty string clears it. -/
def setMetadata (v : Version) (value : String) : Except ParseErr Version :=
  if value = "" then .ok { v with metadata := [] }
  else
    match parseBuildIdents value.data with
    | .ok ids => .ok { v with metadata := ids }
    | .error _ => .error .invalidIdentifier

/-! ## Constraint engine

Modelled from the spec (sections 3 and 4.2): a constraint is a boolean
expression tree over comparator clauses; comma- or pipe-separated groups are
OR'ed and space-separated clauses within one group are AND'ed.  The sugar
operators (`~`, `^`, hyphen ranges, `x`/`X`/`*`/omitted-component wildcards)
are lowered at parse time into primitive comparator clauses over concrete
versions, so the evaluator only executes primitive comparators.  Malformed
comparator, malformed embedded version, or empty group is
`InvalidConstraint`. -/

/-- Primitive comparator operators remaining after lowering. -/
inductive PrimOp where
  | peq
  | pne
  | pgt
  | pge
  | plt
  | ple
deriving DecidableEq

/-- A primitive comparator clause `(operator, Version)`. -/
structure Clause where
  op : PrimOp
  ver : Version
deriving DecidableEq

/-- Engine configuration (spec section 4.2): whether a prerelease version may
satisfy a clause whose comparator version does not carry a prerelease on the
same core.  Defaults to `false`. -/
structure Config where
  allowPrereleaseAcrossCore : Bool := false
deriving DecidableEq

/-- The default engine configuration. -/
def defaultConfig : Config := {}

/-- Evaluation of one primitive comparator against a version. -/
def primSat (op : PrimOp) (cv v : Version) : Bool :=
  match op with
  | .peq => equalVer v cv
  | .pne => !equalVer v cv
  | .pgt => greaterThan v cv
  | .pge => !lessThan v cv
  | .plt => lessThan v cv
  | .ple => !greaterThan v cv

/-- Prerelease gate (spec section 4.2): a prerelease version only satisfies a
clause whose comparator version also carries a prerelease on the same
major.minor.patch, unless configured otherwise. -/
def preGate (cfg : Config) (cl : Clause) (v : Version) : Bool :=
  cfg.allowPrereleaseAcrossCore || v.prerelease.isEmpty ||
    (!cl.ver.prerelease.isEmpty && decide (v.major = cl.ver.major) &&
      decide (v.minor = cl.ver.minor) && decide (v.patch = cl.ver.patch))

/-- Full evaluation of one clause. -/
def checkClause (cfg : Config) (cl : Clause) (v : Version) : Bool :=
  preGate cfg cl v && primSat cl.op cl.ver v

/-- Constraint validation (spec section 4.2): the outer disjunction over
groups of the inner conjunction over clauses. -/
def validate (cfg : Config) (groups : List (List Clause)) (v : Version) : Bool :=
  groups.any (fun g => g.all (fun cl => checkClause cfg cl v))

/-- A partially specified version inside a constraint: wildcard or omitted
core components are `none`. -/
structure PartialVer where
  major : Option Nat
  minor : Option Nat
  patch : Option Nat
  prerelease : List (List Char)
  metadata : List (List Char)
deriving DecidableEq

/-- Fill omitted components with zero. -/
def fillZero (p : PartialVer) : Version :=
  ⟨p.major.getD 0, p.minor.getD 0, p.patch.getD 0, p.prerelease, p.metadata⟩

/-- Parses one core position of a constraint version: a number or a
wildcard. -/
def parseWildComponent (ds : List Char) : Except ParseErr (Option Nat) :=
  if ds = ['x'] || ds = ['X'] || ds = ['*'] then .ok none
  else
    match parseNumComponent ds with
    | .ok n => .ok (some n)
    | .error _ => .error .invalidConstraint

/-- Parses an embedded (possibly partial) version of a constraint clause;
malformed embedded versions are `InvalidConstraint`. -/
def parsePartialVer (cs : List Char) : Except ParseErr PartialVer :=
  let afterV := stripLeadingV cs
  let plusSplit := breakAtChar '+' afterV
  let dashSplit := breakAtChar '-' plusSplit.1
  do
    let core ← match splitOnP (fun c => c == '.') dashSplit.1 with
      | [ma] => do
        let major ← parseWildComponent ma
        pure (major, (none : Option Nat), (none : Option Nat))
      | [ma, mi] => do
        let major ← parseWildComponent ma
        let minor ← parseWildComponent mi
        pure (major, minor, (none : Option Nat))
      | [ma, mi, pa] => do
        let major ← parseWildComponent ma
        let minor ← parseWildComponent mi
        let patch ← parseWildComponent pa
        pure (major, minor, patch)
      | _ => .error .invalidConstraint
    if core.1 = none && core.2.1 ≠ none then .error .invalidConstraint
    else if core.2.1 = none && core.2.2 ≠ none then .error .invalidConstraint
    else do
      let pre ← match dashSplit.2 with
        | none => pure []
        | some s =>
          match parsePreIdents s with
          | .ok ids => pure ids
          | .error _ => .error .invalidConstraint
      let build ← match plusSplit.2 with
        | none => pure []
        | some s =>
          match parseBuildIdents s with
          | .ok ids => pure ids
          | .error _ => .error .invalidConstraint
      if (core.2.2 = none) && pre ≠ [] then .error .invalidConstraint
      else pure ⟨core.1, core.2.1, core.2.2, pre, build⟩

/-- Lowering of a tilde clause: allow patch-level changes when minor is
specified, minor-level when only major is given. -/
def lowerTilde (p : PartialVer) : List Clause :=
  match p.major, p.minor with
  | none, _ => [⟨.pge, fillZero p⟩]
  | some ma, none => [⟨.pge, fillZero p⟩, ⟨.plt, ⟨ma + 1, 0, 0, [], []⟩⟩]
  | some ma, some mi => [⟨.pge, fillZero p⟩, ⟨.plt, ⟨ma, mi + 1, 0, [], []⟩⟩]

/-- Lowering of a caret clause: allow changes that do not modify the leftmost
non-zero component. -/
def lowerCaret (p : PartialVer) : List Clause :=
  match p.major, p.minor, p.patch with
  | none, _, _ => [⟨.pge, fillZero p⟩]
  | some 0, some 0, some pa => [⟨.pge, fillZero p⟩, ⟨.plt, ⟨0, 0, pa + 1, [], []⟩⟩]
  | some 0, some mi, _ => [⟨.pge, fillZero p⟩, ⟨.plt, ⟨0, mi + 1, 0, [], []⟩⟩]
  | some ma, _, _ => [⟨.pge, fillZero p⟩, ⟨.plt, ⟨ma + 1, 0, 0, [], []⟩⟩]

/-- Lowering of a bare version: wildcard or omitted trailing components
expand to a `>=`/`<` bound pair on the implied range; a fully specified
version is an implicit `=`. -/
def lowerWild (p : PartialVer) : List Clause :=
  match p.major, p.minor, p.patch with
  | none, _, _ => [⟨.pge, ⟨0, 0, 0, [], []⟩⟩]
  | some ma, none, _ => [⟨.pge, ⟨ma, 0, 0, [], []⟩⟩, ⟨.plt, ⟨ma + 1, 0, 0, [], []⟩⟩]
  | some ma, some mi, none =>
    [⟨.pge, ⟨ma, mi, 0, [], []⟩⟩, ⟨.plt, ⟨ma, mi + 1, 0, [], []⟩⟩]
  | some ma, some mi, some pa => [⟨.peq, ⟨ma, mi, pa, p.prerelease, p.metadata⟩⟩]

/-- Parses one space-delimited clause token: an optional comparator operator
followed by an embedded version, lowered to primitive clauses. -/
def parseClauseToken (tok : List Char) : Except ParseErr (List Clause) :=
  match tok with
  | '>' :: '=' :: rest => do
    let p ← parsePartialVer rest
    pure [⟨.pge, fillZero p⟩]
  | '<' :: '=' :: rest => do
    let p ← parsePartialVer rest
    pure [⟨.ple, fillZero p⟩]
  | '!' :: '=' :: rest => do
    let p ← parsePartialVer rest
    pure [⟨.pne, fillZero p⟩]
  | '>' :: rest => do
    let p ← parsePartialVer rest
    pure [⟨.pgt, fillZero p⟩]
  | '<' :: rest => do
    let p ← parsePartialVer rest
    pure [⟨.plt, fillZero p⟩]
  | '~' :: rest => do
    let p ← parsePartialVer rest
    pure (lowerTilde p)
  | '^' :: rest => do
    let p ← parsePartialVer rest
    pure (lowerCaret p)
  | '=' :: rest => do
    let p ← parsePartialVer rest
    pure (lowerWild p)
  | _ => do
    let p ← parsePartialVer tok
    pure (lowerWild p)

/-- Parses the token sequence of one group, recognising hyphen ranges
`A - B` (inclusive bounds, AND of `>=` and `<=`) and lowering every other
token independently. -/
def parseClauses : List (List Char) → Except ParseErr (List Clause)
  | [] => pure []
  | a :: ['-'] :: b :: rest => do
    let pa ← parsePartialVer a
    let pb ← parsePartialVer b
    let cs ← parseClauses rest
    pure (⟨.pge, fillZero pa⟩ :: ⟨.ple, fillZero pb⟩ :: cs)
  | t :: rest => do
    let c ← parseClauseToken t
    let cs ← parseClauses rest
    pure (c ++ cs)

/-- Parses one OR-group: space-separated clause tokens, implicitly AND'ed;
an empty group is `InvalidConstraint`. -/
def parseGroup (cs : List Char) : Except ParseErr (List Clause) :=
  let toks := (splitOnP (fun c => c == ' ') cs).filter (fun t => !t.isEmpty)
  if toks.isEmpty then .error .invalidConstraint
  else parseClauses toks

/-- Error-propagating map over a list, the looping pattern used by the shell
when parsing many inputs in order. -/
def mapME {α β : Type} (f : α → Except ParseErr β) : List α → Except ParseErr (List β)
  | [] => .ok []
  | a :: t => do
    let b ← f a
    let bs ← mapME f t
    pure (b :: bs)

/-- Constraint parsing (spec section 4.2 / `semver.NewConstraint` as the spec
describes it): comma- or pipe-separated groups of space-separated clauses;
the groups form the outer disjunction. -/
def parseConstraints (s : String) : Except ParseErr (List (List Clause)) :=
  mapME parseGroup (splitOnP (fun c => c == ',' || c == '|') s.data)

/-! ## The CLI shell commands (from `src/main.go`) -/

/-- The `satisfies` case of `main` (src/main.go:58-72): parse the version and
the constraints, then `Validate`; the exit code is 0 exactly when validation
succeeds. -/
def satisfiesCmd (version constraints : String) : Except ParseErr Bool := do
  let v ← parseVersion version
  let c ← parseConstraints constraints
  pure (validate defaultConfig c v)

/-- The `inc` case of `main` (src/main.go:116-130): dispatch on the component
name, unknown names are a caller error. -/
def incCmd (component version : String) : Except ParseErr String := do
  let v ← parseVersion version
  match component with
  | "major" => pure (render (incMajor v))
  | "minor" => pure (render (incMinor v))
  | "patch" => pure (render (incPatch v))
  | _ => .error .unknownComponent

/-- The `get` case of `main` (src/main.go:132-150): numeric components render
as decimal text, prerelease/metadata as their raw stored text (empty string
when absent). -/
def getCmd (component version : String) : Except ParseErr String := do
  let v ← parseVersion version
  match component with
  | "major" => pure ⟨renderNat v.major⟩
  | "minor" => pure ⟨renderNat v.minor⟩
  | "patch" => pure ⟨renderNat v.patch⟩
  | "prerelease" => pure ⟨joinDotted v.prerelease⟩
  | "metadata" => pure ⟨joinDotted v.metadata⟩
  | _ => .error .unknownComponent

/-- The `set` case of `main` (src/main.go:152-171): dispatch on the component
name and print the mutated version. -/
def setCmd (component version value : String) : Except ParseErr String := do
  let v ← parseVersion version
  match component with
  | "prerelease" => do
    let v1 ← setPrerelease v value
    pure (render v1)
  | "metadata" => do
    let v1 ← setMetadata v value
    pure (render v1)
  | _ => .error .unknownComponent

/-- The ascending order used to model `sort.Slice(..., less = LessThan)` in
the `greatest` case: `a` may precede `b` whenever `a` is not above `b`. -/
def vle (a b : Version) : Prop := compareVersions a b ≠ .gt

instance : DecidableRel vle := fun a b => by unfold vle; infer_instance

/-- The filtering steps of the `greatest` case (src/main.go:179-199): with
the prerelease filter, keep only versions without prerelease; with the build
filter, keep only already-filtered versions without build metadata. -/
def filteredOf (filterPre filterBuild : Bool) (vs : List Version) : List Version :=
  let f1 := if filterPre then vs.filter (fun v => v.prerelease.isEmpty) else vs
  if filterBuild then f1.filter (fun v => v.metadata.isEmpty) else f1

/-- The `greatest` case of `main` (src/main.go:173-205): parse every input,
filter, sort ascending by `LessThan` and print the element at index
`len-1`.  The Go code indexes the slice unconditionally; the `none` result
models the out-of-range access (a runtime panic) that happens when the
filtered slice is empty. -/
def greatestCmd (filterPre filterBuild : Bool) (inputs : List String) :
    Except ParseErr (Option String) := do
  let parsed ← mapME parseVersion inputs
  pure (((List.insertionSort vle (filteredOf filterPre filterBuild parsed)).getLast?).map render)

/-! ## Helper lemmas -/

/-- Successful error-propagating map preserves the length of the list. -/
theorem mapME_ok_length {α β : Type} {f : α → Except ParseErr β} :
    ∀ {l : List α} {l2 : List β}, mapME f l = .ok l2 → l2.length = l.length := by
  intro l
  induction l with
  | nil =>
    intro l2 h
    simp only [mapME, Except.ok.injEq] at h
    simp [← h]
  | cons a t ih =>
    intro l2 h
    simp only [mapME, Bind.bind, Except.bind] at h
    cases hfa : f a with
    | error e => simp [hfa] at h
    | ok b =>
      simp only [hfa] at h
      cases ht : mapME f t with
      | error e => simp [ht] at h
      | ok bs =>
        simp only [ht, pure, Except.pure, Except.ok.injEq] at h
        subst h
        simp [ih ht]

/-- Digit characters have code points between 48 and 57. -/
theorem digit_toNat_bounds {c : Char} (h : c.isDigit = true) :
    48 ≤ c.toNat ∧ c.toNat ≤ 57 := by
  simp only [Char.isDigit, Bool.and_eq_true, decide_eq_true_eq] at h
  obtain ⟨h1, h2⟩ := h
  exact ⟨h1, h2⟩

/-- Characters with equal code points are equal. -/
theorem char_toNat_inj {c d : Char} (h : c.toNat = d.toNat) : c = d :=
  Char.eq_of_val_eq (UInt32.toNat.inj h)

/-- A digit has value at most 9. -/
theorem digitVal_le_nine {c : Char} (h : c.isDigit = true) : digitVal c ≤ 9 := by
  have hb := digit_toNat_bounds h
  unfold digitVal
  omega

/-- `digitVal` is injective on digit characters. -/
theorem digitVal_inj {c d : Char} (hc : c.isDigit = true) (hd : d.isDigit = true)
    (h : digitVal c = digitVal d) : c = d := by
  have h1 := digit_toNat_bounds hc
  have h2 := digit_toNat_bounds hd
  unfold digitVal at h
  exact char_toNat_inj (by omega)

/-- A digit other than `'0'` has positive value. -/
theorem digitVal_pos {c : Char} (hc : c.isDigit = true) (h : c ≠ '0') :
    1 ≤ digitVal c := by
  have h1 := digit_toNat_bounds hc
  have h2 : c.toNat ≠ 48 := by
    intro he
    refine h (char_toNat_inj ?_)
    rw [he]
    rfl
  unfold digitVal
  omega

/-- The value of a digit string is below `10 ^ length`. -/
theorem digitsVal_lt {ds : List Char} (h : ∀ c ∈ ds, c.isDigit = true) :
    digitsVal ds < 10 ^ ds.length := by
  induction ds with
  | nil => simp [digitsVal]
  | cons c cs ih =>
    have hc := h c (List.mem_cons_self c cs)
    have hcs := ih (fun x hx => h x (List.mem_cons_of_mem c hx))
    have h9 := digitVal_le_nine hc
    have hmul : digitVal c * 10 ^ cs.length ≤ 9 * 10 ^ cs.length :=
      Nat.mul_le_mul_right _ h9
    simp only [digitsVal, List.length_cons]
    rw [pow_succ]
    omega

/-- The value of a digit string with a non-zero leading digit is at least
`10 ^ (length - 1)`. -/
theorem digitsVal_lower {c : Char} {cs : List Char} (hc : c.isDigit = true)
    (hne : c ≠ '0') : 10 ^ cs.length ≤ digitsVal (c :: cs) := by
  have h1 := digitVal_pos hc hne
  have hmul : 1 * 10 ^ cs.length ≤ digitVal c * 10 ^ cs.length :=
    Nat.mul_le_mul_right _ h1
  simp only [digitsVal]
  omega

/-- Equal-length digit strings with equal value are equal. -/
theorem digitsVal_inj_of_length : ∀ (ds es : List Char), ds.length = es.length →
    (∀ c ∈ ds, c.isDigit = true) → (∀ c ∈ es, c.isDigit = true) →
    digitsVal ds = digitsVal es → ds = es
  | [], [], _, _, _, _ => rfl
  | [], _ :: _, hlen, _, _, _ => by simp at hlen
  | _ :: _, [], hlen, _, _, _ => by simp at hlen
  | d :: dt, e :: et, hlen, hd, he, hv => by
    have hlen2 : dt.length = et.length := by simpa using hlen
    have hddig := hd d (List.mem_cons_self d dt)
    have hedig := he e (List.mem_cons_self e et)
    have hdall : ∀ c ∈ dt, c.isDigit = true :=
      fun x hx => hd x (List.mem_cons_of_mem d hx)
    have heall : ∀ c ∈ et, c.isDigit = true :=
      fun x hx => he x (List.mem_cons_of_mem e hx)
    have hdt : digitsVal dt < 10 ^ dt.length := digitsVal_lt hdall
    have het : digitsVal et < 10 ^ et.length := digitsVal_lt heall
    simp only [digitsVal] at hv
    rw [hlen2] at hv hdt
    have hK : (0 : Nat) < 10 ^ et.length := Nat.pos_pow_of_pos _ (by norm_num)
    have e1 : (digitVal d * 10 ^ et.length + digitsVal dt) / 10 ^ et.length =
        digitVal d := by
      rw [Nat.add_comm, Nat.add_mul_div_right _ _ hK, Nat.div_eq_of_lt hdt]
      omega
    have e2 : (digitVal e * 10 ^ et.length + digitsVal et) / 10 ^ et.length =
        digitVal e := by
      rw [Nat.add_comm, Nat.add_mul_div_right _ _ hK, Nat.div_eq_of_lt het]
      omega
    have hdv : digitVal d = digitVal e := by rw [← e1, ← e2, hv]
    have htails : digitsVal dt = digitsVal et := by
      rw [hdv] at hv
      omega
    rw [digitVal_inj hddig hedig hdv,
      digitsVal_inj_of_length dt et hlen2 hdall heall htails]

/-- Canonical (no redundant leading zero) digit strings are determined by
their value. -/
theorem digitsVal_canonical_inj : ∀ {ds es : List Char},
    isNumStr ds = true → noLeadZero ds = true →
    isNumStr es = true → noLeadZero es = true →
    digitsVal ds = digitsVal es → ds = es := by
  intro ds es hnd hzd hne hze hv
  simp only [isNumStr, Bool.and_eq_true, Bool.not_eq_true',
    List.isEmpty_eq_false, List.all_eq_true] at hnd hne
  obtain ⟨hd0, hdall⟩ := hnd
  obtain ⟨he0, heall⟩ := hne
  cases ds with
  | nil => exact absurd rfl hd0
  | cons d dt =>
    cases es with
    | nil => exact absurd rfl he0
    | cons e et =>
      simp only [noLeadZero, Bool.or_eq_true, decide_eq_true_eq, List.head?_cons,
        List.length_cons, Option.some.injEq, ne_eq] at hzd hze
      by_cases hdz : d = '0'
      · have hdt : dt = [] := by
          rcases hzd with h | h
          · exact absurd hdz h
          · cases dt with
            | nil => rfl
            | cons x xs => simp at h
        by_cases hez : e = '0'
        · have het : et = [] := by
            rcases hze with h | h
            · exact absurd hez h
            · cases et with
              | nil => rfl
              | cons x xs => simp at h
          rw [hdz, hdt, hez, het]
        · exfalso
          have hlow : 10 ^ et.length ≤ digitsVal (e :: et) :=
            digitsVal_lower (heall e (List.mem_cons_self e et)) hez
          have hzero : digitsVal (d :: dt) = 0 := by
            rw [hdz, hdt]
            rfl
          have hKpos : (0 : Nat) < 10 ^ et.length := Nat.pos_pow_of_pos _ (by norm_num)
          omega
      · by_cases hez : e = '0'
        · exfalso
          have het : et = [] := by
            rcases hze with h | h
            · exact absurd hez h
            · cases et with
              | nil => rfl
              | cons x xs => simp at h
          have hlow : 10 ^ dt.length ≤ digitsVal (d :: dt) :=
            digitsVal_lower (hdall d (List.mem_cons_self d dt)) hdz
          have hzero : digitsVal (e :: et) = 0 := by
            rw [hez, het]
            rfl
          have hKpos : (0 : Nat) < 10 ^ dt.length := Nat.pos_pow_of_pos _ (by norm_num)
          omega
        · have hlowd : 10 ^ dt.length ≤ digitsVal (d :: dt) :=
            digitsVal_lower (hdall d (List.mem_cons_self d dt)) hdz
          have hlowe : 10 ^ et.length ≤ digitsVal (e :: et) :=
            digitsVal_lower (heall e (List.mem_cons_self e et)) hez
          have hhid : digitsVal (d :: dt) < 10 ^ (dt.length + 1) := by
            have : digitsVal (d :: dt) < 10 ^ (d :: dt).length := digitsVal_lt (by
              intro c hc
              rcases List.mem_cons.1 hc with h | h
              · rw [h]; exact hdall d (List.mem_cons_self d dt)
              · exact hdall c (List.mem_cons_of_mem d h))
            simpa using this
          have hhie : digitsVal (e :: et) < 10 ^ (et.length + 1) := by
            have : digitsVal (e :: et) < 10 ^ (e :: et).length := digitsVal_lt (by
              intro c hc
              rcases List.mem_cons.1 hc with h | h
              · rw [h]; exact heall e (List.mem_cons_self e et)
              · exact heall c (List.mem_cons_of_mem e h))
            simpa using this
          have hlen : dt.length = et.length := by
            rcases lt_trichotomy dt.length et.length with hlt | heq | hgt
            · exfalso
              have hpow : 10 ^ (dt.length + 1) ≤ 10 ^ et.length :=
                Nat.pow_le_pow_right (by norm_num) hlt
              omega
            · exact heq
            · exfalso
              have hpow : 10 ^ (et.length + 1) ≤ 10 ^ dt.length :=
                Nat.pow_le_pow_right (by norm_num) hgt
              omega
          exact digitsVal_inj_of_length (d :: dt) (e :: et) (by simp [hlen])
            (by
              intro c hc
              rcases List.mem_cons.1 hc with h | h
              · rw [h]; exact hdall d (List.mem_cons_self d dt)
              · exact hdall c (List.mem_cons_of_mem d h))
            (by
              intro c hc
              rcases List.mem_cons.1 hc with h | h
              · rw [h]; exact heall e (List.mem_cons_self e et)
              · exact heall c (List.mem_cons_of_mem e h))
            hv

/-- Characterization of successful numeric-component parsing. -/
theorem parseNumComponent_ok_iff {ds : List Char} {n : Nat} :
    parseNumComponent ds = .ok n ↔
      (isNumStr ds = true ∧ noLeadZero ds = true ∧ digitsVal ds < 2 ^ 64 ∧
        n = digitsVal ds) := by
  unfold parseNumComponent
  by_cases h1 : (isNumStr ds && noLeadZero ds) = true
  · rw [if_pos h1]
    rw [Bool.and_eq_true] at h1
    by_cases h2 : digitsVal ds < 2 ^ 64
    · rw [if_pos h2]
      constructor
      · intro h
        injection h with h3
        exact ⟨h1.1, h1.2, h2, h3.symm⟩
      · intro h
        rw [h.2.2.2]
    · rw [if_neg h2]
      constructor
      · intro h
        cases h
      · intro h
        exact absurd h.2.2.1 h2
  · rw [if_neg h1]
    rw [Bool.and_eq_true] at h1
    constructor
    · intro h
      cases h
    · intro h
      exact absurd ⟨h.1, h.2.1⟩ h1

/-- Numeric-component parsing only fails with `InvalidFormat`. -/
theorem parseNumComponent_error_kind {ds : List Char} {e : ParseErr}
    (h : parseNumComponent ds = .error e) : e = .invalidFormat := by
  unfold parseNumComponent at h
  split at h
  · split at h
    · cases h
    · injection h with h2
      exact h2.symm
  · injection h with h2
    exact h2.symm

/-- Prerelease-sequence parsing only fails with `InvalidFormat`. -/
theorem parsePreIdents_error_kind {s : List Char} {e : ParseErr}
    (h : parsePreIdents s = .error e) : e = .invalidFormat := by
  unfold parsePreIdents at h
  split at h
  · cases h
  · injection h with h2
    exact h2.symm

/-- Build-sequence parsing only fails with `InvalidFormat`. -/
theorem parseBuildIdents_error_kind {s : List Char} {e : ParseErr}
    (h : parseBuildIdents s = .error e) : e = .invalidFormat := by
  unfold parseBuildIdents at h
  split at h
  · cases h
  · injection h with h2
    exact h2.symm

/-- Splitting never yields an empty list of segments. -/
theorem splitOnP_ne_nil (p : Char → Bool) : ∀ cs, splitOnP p cs ≠ [] := by
  intro cs
  cases cs with
  | nil => simp [splitOnP]
  | cons c cs2 =>
    simp only [splitOnP]
    split
    · simp
    · split
      · simp
      · simp

/-- Prepending a character to the head segment prepends it to the join. -/
theorem joinDotted_cons_head (c : Char) (r : List Char) (rs : List (List Char)) :
    joinDotted ((c :: r) :: rs) = c :: joinDotted (r :: rs) := by
  cases rs with
  | nil => rfl
  | cons s ss => rfl

/-- Joining with dots is a left inverse of splitting at dots. -/
theorem joinDotted_splitOnP_dot :
    ∀ cs, joinDotted (splitOnP (fun c => c == '.') cs) = cs := by
  intro cs
  induction cs with
  | nil => rfl
  | cons c cs2 ih =>
    simp only [splitOnP]
    obtain ⟨r, rs, hr⟩ : ∃ r rs, splitOnP (fun c => c == '.') cs2 = r :: rs := by
      cases hs : splitOnP (fun c => c == '.') cs2 with
      | nil => exact absurd hs (splitOnP_ne_nil _ _)
      | cons r rs => exact ⟨r, rs, rfl⟩
    rw [hr] at ih
    by_cases hc : (c == '.') = true
    · rw [if_pos hc, hr]
      show '.' :: joinDotted (r :: rs) = c :: cs2
      rw [ih, beq_iff_eq.1 hc]
    · rw [if_neg hc, hr, joinDotted_cons_head, ih]

/-- Every character of a join is a dot or comes from one of the segments. -/
theorem mem_joinDotted :
    ∀ (parts : List (List Char)) (c : Char), c ∈ joinDotted parts →
      c = '.' ∨ ∃ p ∈ parts, c ∈ p := by
  intro parts
  induction parts with
  | nil =>
    intro c h
    simp [joinDotted] at h
  | cons x rest ih =>
    intro c h
    cases rest with
    | nil =>
      right
      exact ⟨x, List.mem_cons_self x [], h⟩
    | cons y ys =>
      rw [show joinDotted (x :: y :: ys) = x ++ '.' :: joinDotted (y :: ys)
          from rfl] at h
      rcases List.mem_append.1 h with h1 | h1
      · right
        exact ⟨x, List.mem_cons_self x (y :: ys), h1⟩
      · rcases List.mem_cons.1 h1 with h2 | h2
        · left
          exact h2
        · rcases ih c h2 with h3 | ⟨p, hp, hcp⟩
          · left
            exact h3
          · right
            exact ⟨p, List.mem_cons_of_mem x hp, hcp⟩

/-- A join whose head segment is non-empty is non-empty. -/
theorem joinDotted_ne_nil {p : List Char} {rest : List (List Char)}
    (h : p ≠ []) : joinDotted (p :: rest) ≠ [] := by
  cases rest with
  | nil => exact h
  | cons y ys =>
    rw [show joinDotted (p :: y :: ys) = p ++ '.' :: joinDotted (y :: ys)
        from rfl]
    cases p with
    | nil => exact absurd rfl h
    | cons a as => simp

/-- A dot-separated sequence of valid identifiers matches the raw segment
production of the grammar. -/
theorem dottedSegMatch_of_parts {s : List Char}
    (h : (splitOnP (fun c => c == '.') s).all validIdent = true) :
    dottedSegMatch s = true := by
  rw [List.all_eq_true] at h
  unfold dottedSegMatch
  rw [Bool.and_eq_true]
  obtain ⟨r, rs, hr⟩ : ∃ r rs, splitOnP (fun c => c == '.') s = r :: rs := by
    cases hs : splitOnP (fun c => c == '.') s with
    | nil => exact absurd hs (splitOnP_ne_nil _ _)
    | cons r rs => exact ⟨r, rs, rfl⟩
  have hs : joinDotted (r :: rs) = s := by
    rw [← hr]
    exact joinDotted_splitOnP_dot s
  constructor
  · have hrv : validIdent r = true := h r (hr ▸ List.mem_cons_self r rs)
    rw [validIdent, Bool.and_eq_true, Bool.not_eq_true', List.isEmpty_eq_false]
      at hrv
    rw [Bool.not_eq_true', List.isEmpty_eq_false, ← hs]
    exact joinDotted_ne_nil hrv.1
  · rw [List.all_eq_true]
    intro c hc
    rw [← hs] at hc
    rcases mem_joinDotted (r :: rs) c hc with h1 | ⟨p, hp, hcp⟩
    · rw [h1]
      simp
    · have hpv : validIdent p = true := h p (hr ▸ hp)
      rw [validIdent, Bool.and_eq_true, List.all_eq_true] at hpv
      have := hpv.2 c hcp
      rw [isIdentChar, Bool.or_eq_true, Bool.or_eq_true] at this
      rcases this with (h2 | h2) | h2 <;> simp [h2]

/-- A valid prerelease identifier is in particular a valid identifier. -/
theorem validIdent_of_validPreIdent {x : List Char}
    (h : validPreIdent x = true) : validIdent x = true := by
  unfold validPreIdent at h
  rw [Bool.and_eq_true] at h
  exact h.1

/-- Successful prerelease parsing implies the raw segment matches the
grammar production. -/
theorem parsePreIdents_ok_match {s : List Char} {ids : List (List Char)}
    (h : parsePreIdents s = .ok ids) : dottedSegMatch s = true := by
  unfold parsePreIdents at h
  split at h
  · rename_i hall
    rw [List.all_eq_true] at hall
    refine dottedSegMatch_of_parts ?_
    rw [List.all_eq_true]
    exact fun x hx => validIdent_of_validPreIdent (hall x hx)
  · cases h

/-- Successful build-metadata parsing implies the raw segment matches the
grammar production. -/
theorem parseBuildIdents_ok_match {s : List Char} {ids : List (List Char)}
    (h : parseBuildIdents s = .ok ids) : dottedSegMatch s = true := by
  unfold parseBuildIdents at h
  split at h
  · rename_i hall
    exact dottedSegMatch_of_parts hall
  · cases h

/-- Inversion of successful version parsing: the core splits into exactly
three numeric components that parse into the stored fields, and any present
prerelease / build segment parses into the stored identifier sequences. -/
theorem parseVersionChars_ok_inv {cs : List Char} {v : Version}
    (h : parseVersionChars cs = .ok v) :
    ∃ ma mi pa, coreSegments cs = [ma, mi, pa] ∧
      parseNumComponent ma = .ok v.major ∧
      parseNumComponent mi = .ok v.minor ∧
      parseNumComponent pa = .ok v.patch ∧
      (∀ s, preSegment cs = some s → parsePreIdents s = .ok v.prerelease) ∧
      (∀ s, buildSegment cs = some s → parseBuildIdents s = .ok v.metadata) := by
  unfold parseVersionChars at h
  cases hcs : coreSegments cs with
  | nil =>
    rw [hcs] at h
    exact Except.noConfusion h
  | cons ma r1 =>
    cases r1 with
    | nil =>
      rw [hcs] at h
      exact Except.noConfusion h
    | cons mi r2 =>
      cases r2 with
      | nil =>
        rw [hcs] at h
        exact Except.noConfusion h
      | cons pa r3 =>
        cases r3 with
        | cons w ws =>
          rw [hcs] at h
          exact Except.noConfusion h
        | nil =>
          simp only [hcs, Bind.bind, Except.bind] at h
          cases hma : parseNumComponent ma with
          | error e =>
            simp only [hma] at h
            exact Except.noConfusion h
          | ok a =>
            simp only [hma] at h
            cases hmi : parseNumComponent mi with
            | error e =>
              simp only [hmi] at h
              exact Except.noConfusion h
            | ok b =>
              simp only [hmi] at h
              cases hpa : parseNumComponent pa with
              | error e =>
                simp only [hpa] at h
                exact Except.noConfusion h
              | ok c =>
                simp only [hpa] at h
                cases hp : preSegment cs with
                | none =>
                  simp only [hp, pure, Except.pure] at h
                  cases hb : buildSegment cs with
                  | none =>
                    simp only [hb, pure, Except.pure, Except.ok.injEq] at h
                    subst h
                    exact ⟨ma, mi, pa, rfl, hma, hmi, hpa,
                      fun s hs => Option.noConfusion hs,
                      fun s hs => Option.noConfusion hs⟩
                  | some bs =>
                    simp only [hb] at h
                    cases hbi : parseBuildIdents bs with
                    | error e =>
                      simp only [hbi] at h
                      exact Except.noConfusion h
                    | ok bids =>
                      simp only [hbi, pure, Except.pure, Except.ok.injEq] at h
                      subst h
                      refine ⟨ma, mi, pa, rfl, hma, hmi, hpa,
                        fun s hs => Option.noConfusion hs,
                        fun s hs => ?_⟩
                      injection hs with hs2
                      rw [← hs2]
                      exact hbi
                | some ps =>
                  simp only [hp] at h
                  cases hpi : parsePreIdents ps with
                  | error e =>
                    simp only [hpi] at h
                    exact Except.noConfusion h
                  | ok pids =>
                    simp only [hpi] at h
                    cases hb : buildSegment cs with
                    | none =>
                      simp only [hb, pure, Except.pure, Except.ok.injEq] at h
                      subst h
                      refine ⟨ma, mi, pa, rfl, hma, hmi, hpa,
                        fun s hs => ?_,
                        fun s hs => Option.noConfusion hs⟩
                      injection hs with hs2
                      rw [← hs2]
                      exact hpi
                    | some bs =>
                      simp only [hb] at h
                      cases hbi : parseBuildIdents bs with
                      | error e =>
                        simp only [hbi] at h
                        exact Except.noConfusion h
                      | ok bids =>
                        simp only [hbi, pure, Except.pure, Except.ok.injEq] at h
                        subst h
                        refine ⟨ma, mi, pa, rfl, hma, hmi, hpa,
                          fun s hs => ?_, fun s hs => ?_⟩
                        · injection hs with hs2
                          rw [← hs2]
                          exact hpi
                        · injection hs with hs2
                          rw [← hs2]
                          exact hbi

/-- Soundness of the parser against the grammar: whatever parses matches the
anchored regular expression. -/
theorem parseVersionChars_ok_matches {cs : List Char} {v : Version}
    (h : parseVersionChars cs = .ok v) : matchesVersionGrammar cs = true := by
  obtain ⟨ma, mi, pa, hc, hma, hmi, hpa, hps, hbs⟩ := parseVersionChars_ok_inv h
  have hnum : ∀ {ds : List Char} {n : Nat}, parseNumComponent ds = .ok n →
      numCoreMatch ds = true := by
    intro ds n hd
    rw [parseNumComponent_ok_iff] at hd
    unfold numCoreMatch
    rw [Bool.and_eq_true]
    exact ⟨hd.1, hd.2.1⟩
  unfold matchesVersionGrammar
  rw [hc]
  rw [Bool.and_eq_true, Bool.and_eq_true]
  refine ⟨⟨?_, ?_⟩, ?_⟩
  · rw [Bool.and_eq_true, Bool.and_eq_true]
    exact ⟨⟨hnum hma, hnum hmi⟩, hnum hpa⟩
  · cases hp : preSegment cs with
    | none => rfl
    | some s => exact parsePreIdents_ok_match (hps s hp)
  · cases hb : buildSegment cs with
    | none => rfl
    | some s => exact parseBuildIdents_ok_match (hbs s hb)

/-- Version parsing only fails with `InvalidFormat`. -/
theorem parseVersionChars_error_kind {cs : List Char} {e : ParseErr}
    (h : parseVersionChars cs = .error e) : e = .invalidFormat := by
  unfold parseVersionChars at h
  cases hcs : coreSegments cs with
  | nil =>
    simp only [hcs, Except.error.injEq] at h
    exact h.symm
  | cons ma r1 =>
    cases r1 with
    | nil =>
      simp only [hcs, Except.error.injEq] at h
      exact h.symm
    | cons mi r2 =>
      cases r2 with
      | nil =>
        simp only [hcs, Except.error.injEq] at h
        exact h.symm
      | cons pa r3 =>
        cases r3 with
        | cons w ws =>
          simp only [hcs, Except.error.injEq] at h
          exact h.symm
        | nil =>
          simp only [hcs, Bind.bind, Except.bind] at h
          cases hma : parseNumComponent ma with
          | error e1 =>
            simp only [hma, Except.error.injEq] at h
            rw [← h]
            exact parseNumComponent_error_kind hma
          | ok a =>
            simp only [hma] at h
            cases hmi : parseNumComponent mi with
            | error e1 =>
              simp only [hmi, Except.error.injEq] at h
              rw [← h]
              exact parseNumComponent_error_kind hmi
            | ok b =>
              simp only [hmi] at h
              cases hpa : parseNumComponent pa with
              | error e1 =>
                simp only [hpa, Except.error.injEq] at h
                rw [← h]
                exact parseNumComponent_error_kind hpa
              | ok c =>
                simp only [hpa] at h
                cases hp : preSegment cs with
                | none =>
                  simp only [hp, pure, Except.pure] at h
                  cases hb : buildSegment cs with
                  | none => simp only [hb] at h; exact Except.noConfusion h
                  | some bs =>
                    simp only [hb] at h
                    cases hbi : parseBuildIdents bs with
                    | error e1 =>
                      simp only [hbi, Except.error.injEq] at h
                      rw [← h]
                      exact parseBuildIdents_error_kind hbi
                    | ok bids => simp only [hbi] at h; exact Except.noConfusion h
                | some ps =>
                  simp only [hp] at h
                  cases hpi : parsePreIdents ps with
                  | error e1 =>
                    simp only [hpi, Except.error.injEq] at h
                    rw [← h]
                    exact parsePreIdents_error_kind hpi
                  | ok pids =>
                    simp only [hpi] at h
                    cases hb : buildSegment cs with
                    | none => simp only [hb, pure, Except.pure] at h; exact Except.noConfusion h
                    | some bs =>
                      simp only [hb] at h
                      cases hbi : parseBuildIdents bs with
                      | error e1 =>
                        simp only [hbi, Except.error.injEq] at h
                        rw [← h]
                        exact parseBuildIdents_error_kind hbi
                      | ok bids => simp only [hbi] at h; exact Except.noConfusion h

instance : IsTrans Version vle where
  trans a b c h1 h2 := @Batteries.TransCmp.le_trans _ compareVersions _ _ _ _ h1 h2

instance : IsTotal Version vle where
  total a b := by
    unfold vle
    cases e : compareVersions a b with
    | lt => exact Or.inl (by simp [e])
    | eq => exact Or.inl (by simp [e])
    | gt =>
      right
      have hba : compareVersions b a = .lt := Batteries.OrientedCmp.cmp_eq_gt.1 e
      simp [hba]

/-- The last element (when present) is a member of the list. -/
theorem getLast?_mem {α : Type} : ∀ {l : List α} {m : α},
    l.getLast? = some m → m ∈ l := by
  intro l
  induction l with
  | nil =>
    intro m h
    cases h
  | cons a t ih =>
    intro m h
    cases t with
    | nil =>
      have ham : a = m := by simpa using h
      rw [← ham]
      exact List.mem_cons_self a []
    | cons b t2 =>
      rw [List.getLast?_cons_cons] at h
      exact List.mem_cons_of_mem a (ih h)

/-- In a list sorted ascending by `vle`, the last element is above every
member. -/
theorem sorted_getLast?_ge : ∀ {l : List Version}, List.Sorted vle l →
    ∀ {m : Version}, l.getLast? = some m → ∀ x ∈ l, vle x m := by
  intro l
  induction l with
  | nil =>
    intro _ m hm
    cases hm
  | cons a t ih =>
    intro hs m hm x hx
    rw [List.sorted_cons] at hs
    cases t with
    | nil =>
      have ham : a = m := by simpa using hm
      rcases List.mem_cons.1 hx with h | h
      · rw [h, ← ham]
        unfold vle
        have hr : compareVersions a a = .eq := Batteries.OrientedCmp.cmp_refl
        simp [hr]
      · cases h
    | cons b t2 =>
      rw [List.getLast?_cons_cons] at hm
      rcases List.mem_cons.1 hx with h | h
      · rw [h]
        exact hs.1 m (getLast?_mem hm)
      · exact ih hs.2 hm x h

/-- A lexicographic comparison is `eq` only on equal lists, provided the
element comparison is `eq` only on equal (suitably constrained) elements. -/
theorem cmpList_eq_eq_of (f : α → α → Ordering) (P : α → Prop)
    (hf : ∀ a b, P a → P b → f a b = .eq → a = b) :
    ∀ (xs ys : List α), (∀ x ∈ xs, P x) → (∀ y ∈ ys, P y) →
      cmpList f xs ys = .eq → xs = ys
  | [], [], _, _, _ => rfl
  | [], _ :: _, _, _, h => by simp [cmpList] at h
  | _ :: _, [], _, _, h => by simp [cmpList] at h
  | x :: xs, y :: ys, hx, hy, h => by
    rw [show cmpList f (x :: xs) (y :: ys) = (f x y).then (cmpList f xs ys)
        from rfl,
      Ordering.then_eq_eq] at h
    have h1 := hf x y (hx x (List.mem_cons_self x xs))
      (hy y (List.mem_cons_self y ys)) h.1
    have h2 := cmpList_eq_eq_of f P hf xs ys
      (fun a ha => hx a (List.mem_cons_of_mem x ha))
      (fun b hb => hy b (List.mem_cons_of_mem y hb)) h.2
    rw [h1, h2]

/-- Identifier comparison is `eq` only on equal identifiers, for identifiers
respecting the prerelease grammar. -/
theorem cmpIdent_eq_of_valid {a b : List Char} (ha : validPreIdent a = true)
    (hb : validPreIdent b = true) (h : cmpIdent a b = .eq) : a = b := by
  unfold cmpIdent at h
  by_cases hna : isNumStr a = true <;> by_cases hnb : isNumStr b = true <;>
    simp only [hna, hnb, if_true, if_false] at h
  · simp only [validPreIdent, hna, hnb, Bool.and_eq_true, Bool.or_eq_true,
      Bool.not_eq_true'] at ha hb
    have hza : noLeadZero a = true := by
      rcases ha.2 with h1 | h1
      · simp at h1
      · exact h1
    have hzb : noLeadZero b = true := by
      rcases hb.2 with h1 | h1
      · simp at h1
      · exact h1
    exact digitsVal_canonical_inj hna hza hnb hzb (cmpLin_eq_eq.1 h)
  · cases h
  · cases h
  · exact cmpList_eq_eq_of cmpLin (fun _ => True)
      (fun x y _ _ hxy => cmpLin_eq_eq.1 hxy) a b
      (fun _ _ => trivial) (fun _ _ => trivial) h

/-- Prerelease-sequence comparison is `eq` exactly on equal sequences, for
sequences of grammar-valid identifiers. -/
theorem cmpPre_eq_iff {xs ys : List (List Char)}
    (hx : xs.all validPreIdent = true) (hy : ys.all validPreIdent = true) :
    cmpPre xs ys = .eq ↔ xs = ys := by
  constructor
  · intro h
    cases xs with
    | nil =>
      cases ys with
      | nil => rfl
      | cons yh yt => cases h
    | cons xh xt =>
      cases ys with
      | nil => cases h
      | cons yh yt =>
        rw [List.all_eq_true] at hx hy
        exact cmpList_eq_eq_of cmpIdent (fun i => validPreIdent i = true)
          (fun a b hpa hpb hpe => cmpIdent_eq_of_valid hpa hpb hpe)
          (xh :: xt) (yh :: yt) hx hy h
  · intro h
    subst h
    exact Batteries.OrientedCmp.cmp_refl

/-- Version comparison is `eq` exactly when major, minor, patch and the
prerelease sequences agree; the build metadata never participates. -/
theorem compareVersions_eq_iff {a b : Version} (ha : validVersion a = true)
    (hb : validVersion b = true) :
    compareVersions a b = .eq ↔
      (a.major = b.major ∧ a.minor = b.minor ∧ a.patch = b.patch ∧
        a.prerelease = b.prerelease) := by
  simp only [validVersion, Bool.and_eq_true] at ha hb
  unfold compareVersions cmpThen cmpOn
  rw [Ordering.then_eq_eq, Ordering.then_eq_eq, Ordering.then_eq_eq]
  simp only [cmpLin_eq_eq]
  rw [cmpPre_eq_iff ha.1 hb.1]

end Semver

namespace Semver

/-- C1: version parsing is strict: every input string that deviates from the
grammar `v?(0|[1-9]\d*)\.(0|[1-9]\d*)\.(0|[1-9]\d*)(-[0-9A-Za-z.-]+)?(\+[0-9A-Za-z.-]+)?`
is rejected with `InvalidFormat` rather than producing a `Version`; the
whitespace constraint string rejected with `InvalidConstraint` is the
constraint-side counterpart quoted by the claim. -/
theorem parse_rejects_grammar_deviations (s : String)
    (h : matchesVersionGrammar s.data = false) :
    parseVersion s = .error .invalidFormat ∧
    parseConstraints " " = .error .invalidConstraint := by
  constructor
  · cases hp : parseVersion s with
    | ok v =>
      have hp2 : parseVersionChars s.data = .ok v := hp
      have hm := parseVersionChars_ok_matches hp2
      rw [hm] at h
      exact Bool.noConfusion h
    | error e =>
      have hp2 : parseVersionChars s.data = .error e := hp
      have he := parseVersionChars_error_kind hp2
      rw [he]
  · decide

/-- C1 witness: the malformed inputs `1.2` (missing component), `1.2.3.4`
(extra component) and `01.2.3` (leading zero) all fail with
`InvalidFormat`. -/
theorem parse_rejects_grammar_deviations_witness :
    (matchesVersionGrammar "1.2".data = false ∧
      parseVersion "1.2" = .error .invalidFormat) ∧
    (matchesVersionGrammar "1.2.3.4".data = false ∧
      parseVersion "1.2.3.4" = .error .invalidFormat) ∧
    (matchesVersionGrammar "01.2.3".data = false ∧
      parseVersion "01.2.3" = .error .invalidFormat) :=
  ⟨⟨by decide, (parse_rejects_grammar_deviations "1.2" (by decide)).1⟩,
   ⟨by decide, (parse_rejects_grammar_deviations "1.2.3.4" (by decide)).1⟩,
   ⟨by decide, (parse_rejects_grammar_deviations "01.2.3" (by decide)).1⟩⟩

/-- C9: the numeric core components are exact non-negative integers: a
successful parse stores exactly the decimal value of the digit string (no
wrapping or truncation), and a component whose value exceeds the 64-bit
representable range is rejected with a parse error. -/
theorem core_components_no_silent_wrap :
    (∀ ds n, parseNumComponent ds = .ok n → n = digitsVal ds ∧ n < 2 ^ 64) ∧
    (∀ ds, 2 ^ 64 ≤ digitsVal ds →
      parseNumComponent ds = .error .invalidFormat) ∧
    (∀ s v, parseVersion s = .ok v →
      v.major < 2 ^ 64 ∧ v.minor < 2 ^ 64 ∧ v.patch < 2 ^ 64) := by
  refine ⟨?_, ?_, ?_⟩
  · intro ds n h
    rw [parseNumComponent_ok_iff] at h
    obtain ⟨-, -, h3, h4⟩ := h
    exact ⟨h4, by rw [h4]; exact h3⟩
  · intro ds hge
    unfold parseNumComponent
    split
    · have hlt : ¬ digitsVal ds < 2 ^ 64 := by omega
      rw [if_neg hlt]
    · rfl
  · intro s v h
    obtain ⟨ma, mi, pa, -, hma, hmi, hpa, -, -⟩ := parseVersionChars_ok_inv h
    rw [parseNumComponent_ok_iff] at hma hmi hpa
    exact ⟨by rw [hma.2.2.2]; exact hma.2.2.1,
      by rw [hmi.2.2.2]; exact hmi.2.2.1,
      by rw [hpa.2.2.2]; exact hpa.2.2.1⟩

/-- C9 witness: the exact value of `"12"`, the rejection of
`"18446744073709551616"` (equal to `2 ^ 64`), and the bounds on a parsed
version. -/
theorem core_components_no_silent_wrap_witness :
    (12 = digitsVal ['1', '2'] ∧ 12 < 2 ^ 64) ∧
    parseNumComponent "18446744073709551616".data = .error .invalidFormat ∧
    ((⟨1, 2, 3, [], []⟩ : Version).major < 2 ^ 64 ∧
      (⟨1, 2, 3, [], []⟩ : Version).minor < 2 ^ 64 ∧
      (⟨1, 2, 3, [], []⟩ : Version).patch < 2 ^ 64) :=
  ⟨core_components_no_silent_wrap.1 ['1', '2'] 12 (by decide),
   core_components_no_silent_wrap.2.1 "18446744073709551616".data (by decide),
   core_components_no_silent_wrap.2.2 "1.2.3" ⟨1, 2, 3, [], []⟩ (by decide)⟩

/-- C2: in constraint parsing, space-separated clauses within one group are
conjoined (AND) while comma- and pipe-separated parts delimit groups that
are disjoined (OR): a version satisfies a successfully parsed constraint iff
it satisfies every clause of at least one group, and the parsed groups are
in bijection with the comma/pipe-delimited parts of the input. -/
theorem constraint_groups_or_clauses_and (s : String) (gs : List (List Clause))
    (v : Version) (h : parseConstraints s = .ok gs) :
    (validate defaultConfig gs v = true ↔
      ∃ g ∈ gs, ∀ cl ∈ g, checkClause defaultConfig cl v = true) ∧
    gs.length = (splitOnP (fun c => c == ',' || c == '|') s.data).length := by
  constructor
  · simp [validate, List.any_eq_true, List.all_eq_true]
  · exact mapME_ok_length h

/-- C2 witness: instantiation at the constraint `">=1.2.0 <2.0.0,3.x"` and
the version `1.5.0`. -/
theorem constraint_groups_or_clauses_and_witness :
    (validate defaultConfig
        [[⟨.pge, ⟨1, 2, 0, [], []⟩⟩, ⟨.plt, ⟨2, 0, 0, [], []⟩⟩],
         [⟨.pge, ⟨3, 0, 0, [], []⟩⟩, ⟨.plt, ⟨4, 0, 0, [], []⟩⟩]]
        (⟨1, 5, 0, [], []⟩ : Version) = true ↔
      ∃ g ∈ [[(⟨.pge, ⟨1, 2, 0, [], []⟩⟩ : Clause), ⟨.plt, ⟨2, 0, 0, [], []⟩⟩],
             [⟨.pge, ⟨3, 0, 0, [], []⟩⟩, ⟨.plt, ⟨4, 0, 0, [], []⟩⟩]],
        ∀ cl ∈ g, checkClause defaultConfig cl (⟨1, 5, 0, [], []⟩ : Version) = true) ∧
    ([[(⟨.pge, ⟨1, 2, 0, [], []⟩⟩ : Clause), ⟨.plt, ⟨2, 0, 0, [], []⟩⟩],
      [⟨.pge, ⟨3, 0, 0, [], []⟩⟩, ⟨.plt, ⟨4, 0, 0, [], []⟩⟩]]).length =
      (splitOnP (fun c => c == ',' || c == '|') ">=1.2.0 <2.0.0,3.x".data).length :=
  constraint_groups_or_clauses_and ">=1.2.0 <2.0.0,3.x" _ _ (by decide)

/-- C3: with the default configuration a version carrying a non-empty
prerelease satisfies a clause only if the clause's comparator version also
carries a prerelease on the same major.minor.patch; setting
`allow-prerelease-across-core` disables the restriction. -/
theorem prerelease_needs_matching_core (cl : Clause) (v : Version)
    (hpre : v.prerelease ≠ []) :
    (checkClause defaultConfig cl v = true →
      cl.ver.prerelease ≠ [] ∧ v.major = cl.ver.major ∧
        v.minor = cl.ver.minor ∧ v.patch = cl.ver.patch) ∧
    (∀ cfg : Config, cfg.allowPrereleaseAcrossCore = true →
      checkClause cfg cl v = primSat cl.op cl.ver v) := by
  constructor
  · intro h
    simp only [checkClause, preGate, defaultConfig, Bool.and_eq_true,
      Bool.or_eq_true, decide_eq_true_eq, Bool.not_eq_true',
      List.isEmpty_eq_true, List.isEmpty_eq_false, Bool.false_eq_true,
      false_or] at h
    rcases h with ⟨h1 | h1, _⟩
    · exact absurd h1 hpre
    · rcases h1 with ⟨⟨⟨hne, hma⟩, hmi⟩, hpa⟩
      exact ⟨hne, hma, hmi, hpa⟩
  · intro cfg hcfg
    simp [checkClause, preGate, hcfg]

/-- C3 witness: `1.2.3-beta` against the clause `>=1.2.3-alpha`. -/
theorem prerelease_needs_matching_core_witness :
    ((⟨.pge, ⟨1, 2, 3, [['a', 'l', 'p', 'h', 'a']], []⟩⟩ : Clause).ver.prerelease ≠ [] ∧
      (⟨1, 2, 3, [['b', 'e', 't', 'a']], []⟩ : Version).major =
        (⟨.pge, ⟨1, 2, 3, [['a', 'l', 'p', 'h', 'a']], []⟩⟩ : Clause).ver.major ∧
      (⟨1, 2, 3, [['b', 'e', 't', 'a']], []⟩ : Version).minor =
        (⟨.pge, ⟨1, 2, 3, [['a', 'l', 'p', 'h', 'a']], []⟩⟩ : Clause).ver.minor ∧
      (⟨1, 2, 3, [['b', 'e', 't', 'a']], []⟩ : Version).patch =
        (⟨.pge, ⟨1, 2, 3, [['a', 'l', 'p', 'h', 'a']], []⟩⟩ : Clause).ver.patch) :=
  (prerelease_needs_matching_core
    ⟨.pge, ⟨1, 2, 3, [['a', 'l', 'p', 'h', 'a']], []⟩⟩
    ⟨1, 2, 3, [['b', 'e', 't', 'a']], []⟩ (by decide)).1 (by decide)

/-- C4: counter to the claim, the `greatest` case of `main` does not detect
an empty filtered result: on the single prerelease input `1.0.0-alpha` with
the prerelease filter active, every version is filtered out and the code
proceeds to index the empty slice (Go: `filtered_versions[len-1]` with
`len = 0`, a runtime panic, modelled by the `none` selection result). -/
theorem greatest_indexes_empty_after_filter :
    greatestCmd true false ["1.0.0-alpha"] = .ok none := by decide

/-- C5: incMajor/incMinor/incPatch increment the named component by one,
zero the lower-significance components and clear prerelease and build
metadata unconditionally; `incMinor` of `1.2.3-rc.1+b` is `1.3.0`. -/
theorem inc_increments_resets_clears :
    (∀ v : Version,
      incMajor v = ⟨v.major + 1, 0, 0, [], []⟩ ∧
      incMinor v = ⟨v.major, v.minor + 1, 0, [], []⟩ ∧
      incPatch v = ⟨v.major, v.minor, v.patch + 1, [], []⟩) ∧
    (parseVersion "1.2.3-rc.1+b").map incMinor = parseVersion "1.3.0" ∧
    incCmd "minor" "1.2.3-rc.1+b" = .ok "1.3.0" :=
  ⟨fun _ => ⟨rfl, rfl, rfl⟩, by decide, by decide⟩

/-- C6: for parsed inputs, `greatest` with the prerelease filter first drops
every version carrying a prerelease, with the build filter then drops from
the already-filtered list every version carrying build metadata, and prints
a maximum of the remaining versions by the SemVer ordering; on
`["1.0.0", "1.2.0-beta", "1.1.0"]` it yields `1.1.0` with the prerelease
filter and `1.2.0-beta` without it. -/
theorem greatest_filters_then_selects_max (fp fb : Bool) (inputs : List String)
    (vs : List Version) (hparse : mapME parseVersion inputs = .ok vs) :
    (∀ x, x ∈ filteredOf fp fb vs ↔
      (x ∈ vs ∧ (fp = true → x.prerelease = []) ∧ (fb = true → x.metadata = []))) ∧
    (filteredOf fp fb vs ≠ [] →
      ∃ m, greatestCmd fp fb inputs = .ok (some (render m)) ∧
        m ∈ filteredOf fp fb vs ∧
        ∀ x ∈ filteredOf fp fb vs, compareVersions x m ≠ .gt) ∧
    greatestCmd true false ["1.0.0", "1.2.0-beta", "1.1.0"] = .ok (some "1.1.0") ∧
    greatestCmd false false ["1.0.0", "1.2.0-beta", "1.1.0"] =
      .ok (some "1.2.0-beta") := by
  refine ⟨?_, ?_, by decide, by decide⟩
  · intro x
    cases fp <;> cases fb <;>
      simp [filteredOf, List.mem_filter, and_assoc] <;> tauto
  · intro hne
    have hperm := List.perm_insertionSort vle (filteredOf fp fb vs)
    have hsort := List.sorted_insertionSort vle (filteredOf fp fb vs)
    obtain ⟨m, hm⟩ : ∃ m,
        (List.insertionSort vle (filteredOf fp fb vs)).getLast? = some m := by
      cases hlast : (List.insertionSort vle (filteredOf fp fb vs)).getLast? with
      | some m => exact ⟨m, rfl⟩
      | none =>
        rw [List.getLast?_eq_none_iff] at hlast
        rw [hlast] at hperm
        exact absurd (List.perm_nil.1 hperm.symm) hne
    refine ⟨m, ?_, ?_, ?_⟩
    · unfold greatestCmd
      simp only [hparse, Bind.bind, Except.bind, pure, Except.pure]
      rw [hm]
      rfl
    · exact hperm.mem_iff.1 (getLast?_mem hm)
    · intro x hx
      exact sorted_getLast?_ge hsort hm x (hperm.mem_iff.2 hx)

/-- C6 witness: instantiation at the documented `greatest` scenario with the
prerelease filter active. -/
theorem greatest_filters_then_selects_max_witness :
    ∃ m, greatestCmd true false ["1.0.0", "1.2.0-beta", "1.1.0"] =
        .ok (some (render m)) ∧
      m ∈ filteredOf true false
        [⟨1, 0, 0, [], []⟩, ⟨1, 2, 0, [['b', 'e', 't', 'a']], []⟩,
          ⟨1, 1, 0, [], []⟩] ∧
      ∀ x ∈ filteredOf true false
        [⟨1, 0, 0, [], []⟩, ⟨1, 2, 0, [['b', 'e', 't', 'a']], []⟩,
          ⟨1, 1, 0, [], []⟩],
        compareVersions x m ≠ .gt :=
  (greatest_filters_then_selects_max true false ["1.0.0", "1.2.0-beta", "1.1.0"]
    [⟨1, 0, 0, [], []⟩, ⟨1, 2, 0, [['b', 'e', 't', 'a']], []⟩,
      ⟨1, 1, 0, [], []⟩] (by decide)).2.1 (by decide)

/-- C7: the version ordering is total and consistent: for all valid versions
exactly one of less-than, equal, greater-than holds (so `greaterThan` and
`lessThan` are never both true, and when `equal` is false exactly one of
them is true), and `compare` is transitive in each of its three outcomes. -/
theorem ordering_total_and_transitive (a b c : Version)
    (ha : validVersion a = true) (hb : validVersion b = true)
    (hc : validVersion c = true) :
    ((lessThan a b = true ∧ equalVer a b = false ∧ greaterThan a b = false) ∨
     (lessThan a b = false ∧ equalVer a b = true ∧ greaterThan a b = false) ∨
     (lessThan a b = false ∧ equalVer a b = false ∧ greaterThan a b = true)) ∧
    (compareVersions a b = .lt → compareVersions b c = .lt →
      compareVersions a c = .lt) ∧
    (compareVersions a b = .eq → compareVersions b c = .eq →
      compareVersions a c = .eq) ∧
    (compareVersions a b = .gt → compareVersions b c = .gt →
      compareVersions a c = .gt) := by
  refine ⟨?_, ?_, ?_, ?_⟩
  · cases e : compareVersions a b with
    | lt => exact Or.inl (by simp [lessThan, equalVer, greaterThan, e])
    | eq => exact Or.inr (Or.inl (by simp [lessThan, equalVer, greaterThan, e]))
    | gt => exact Or.inr (Or.inr (by simp [lessThan, equalVer, greaterThan, e]))
  · exact Batteries.TransCmp.lt_trans
  · intro h1 h2
    rw [Batteries.TransCmp.cmp_congr_left h1]
    exact h2
  · exact Batteries.TransCmp.gt_trans

/-- C7 witness: instantiation at `0.0.0-a`, `0.0.0` and `1.0.0`. -/
theorem ordering_total_and_transitive_witness :
    ((lessThan ⟨0, 0, 0, [['a']], []⟩ ⟨0, 0, 0, [], []⟩ = true ∧
      equalVer ⟨0, 0, 0, [['a']], []⟩ ⟨0, 0, 0, [], []⟩ = false ∧
      greaterThan ⟨0, 0, 0, [['a']], []⟩ ⟨0, 0, 0, [], []⟩ = false) ∨
     (lessThan ⟨0, 0, 0, [['a']], []⟩ ⟨0, 0, 0, [], []⟩ = false ∧
      equalVer ⟨0, 0, 0, [['a']], []⟩ ⟨0, 0, 0, [], []⟩ = true ∧
      greaterThan ⟨0, 0, 0, [['a']], []⟩ ⟨0, 0, 0, [], []⟩ = false) ∨
     (lessThan ⟨0, 0, 0, [['a']], []⟩ ⟨0, 0, 0, [], []⟩ = false ∧
      equalVer ⟨0, 0, 0, [['a']], []⟩ ⟨0, 0, 0, [], []⟩ = false ∧
      greaterThan ⟨0, 0, 0, [['a']], []⟩ ⟨0, 0, 0, [], []⟩ = true)) ∧
    (compareVersions ⟨0, 0, 0, [['a']], []⟩ ⟨0, 0, 0, [], []⟩ = .lt →
      compareVersions ⟨0, 0, 0, [], []⟩ ⟨1, 0, 0, [], []⟩ = .lt →
      compareVersions ⟨0, 0, 0, [['a']], []⟩ ⟨1, 0, 0, [], []⟩ = .lt) ∧
    (compareVersions ⟨0, 0, 0, [['a']], []⟩ ⟨0, 0, 0, [], []⟩ = .eq →
      compareVersions ⟨0, 0, 0, [], []⟩ ⟨1, 0, 0, [], []⟩ = .eq →
      compareVersions ⟨0, 0, 0, [['a']], []⟩ ⟨1, 0, 0, [], []⟩ = .eq) ∧
    (compareVersions ⟨0, 0, 0, [['a']], []⟩ ⟨0, 0, 0, [], []⟩ = .gt →
      compareVersions ⟨0, 0, 0, [], []⟩ ⟨1, 0, 0, [], []⟩ = .gt →
      compareVersions ⟨0, 0, 0, [['a']], []⟩ ⟨1, 0, 0, [], []⟩ = .gt) :=
  ordering_total_and_transitive ⟨0, 0, 0, [['a']], []⟩ ⟨0, 0, 0, [], []⟩
    ⟨1, 0, 0, [], []⟩ (by decide) (by decide) (by decide)

/-- C8: build metadata never affects equality: for valid versions,
`equal(a, b)` holds iff major, minor, patch and the prerelease identifier
sequences all agree, regardless of any difference in build metadata, so two
versions differing only in build metadata are equal. -/
theorem equal_ignores_build_metadata (a b : Version)
    (ha : validVersion a = true) (hb : validVersion b = true) :
    equalVer a b = true ↔
      (a.major = b.major ∧ a.minor = b.minor ∧ a.patch = b.patch ∧
        a.prerelease = b.prerelease) := by
  unfold equalVer
  rw [decide_eq_true_eq]
  exact compareVersions_eq_iff ha hb

/-- C8 witness: `1.2.3-a+x` and `1.2.3-a+y` differ only in build metadata
and are equal. -/
theorem equal_ignores_build_metadata_witness :
    equalVer ⟨1, 2, 3, [['a']], [['x']]⟩ ⟨1, 2, 3, [['a']], [['y']]⟩ = true ↔
      ((⟨1, 2, 3, [['a']], [['x']]⟩ : Version).major =
          (⟨1, 2, 3, [['a']], [['y']]⟩ : Version).major ∧
        (⟨1, 2, 3, [['a']], [['x']]⟩ : Version).minor =
          (⟨1, 2, 3, [['a']], [['y']]⟩ : Version).minor ∧
        (⟨1, 2, 3, [['a']], [['x']]⟩ : Version).patch =
          (⟨1, 2, 3, [['a']], [['y']]⟩ : Version).patch ∧
        (⟨1, 2, 3, [['a']], [['x']]⟩ : Version).prerelease =
          (⟨1, 2, 3, [['a']], [['y']]⟩ : Version).prerelease) :=
  equal_ignores_build_metadata ⟨1, 2, 3, [['a']], [['x']]⟩
    ⟨1, 2, 3, [['a']], [['y']]⟩ (by decide) (by decide)

/-- C10: `set` with the empty string as value succeeds for both the
prerelease and the metadata component, clearing the field; the rendered
result carries no `-prerelease` (respectively `+build`) suffix. -/
theorem set_empty_value_clears_field :
    (∀ v : Version,
      setPrerelease v "" = .ok { v with prerelease := [] } ∧
      setMetadata v "" = .ok { v with metadata := [] }) ∧
    setCmd "prerelease" "1.2.3-rc.1+b" "" = .ok "1.2.3+b" ∧
    setCmd "metadata" "1.2.3-rc.1+b" "" = .ok "1.2.3-rc.1" :=
  ⟨fun _ => ⟨rfl, rfl⟩, by decide, by decide⟩

end Semver

namespace Semver

example : parseVersion "1.2.3" = .ok ⟨1, 2, 3, [], []⟩ := by decide
example : parseVersion "v1.2.3-rc.1+b5" =
    .ok ⟨1, 2, 3, [['r', 'c'], ['1']], [['b', '5']]⟩ := by decide
example : parseVersion "1.2" = .error .invalidFormat := by decide
example : parseVersion "1.2.3.4" = .error .invalidFormat := by decide
example : parseVersion "01.2.3" = .error .invalidFormat := by decide
example : parseVersion "1.2.3-rc.01" = .error .invalidFormat := by decide
example : render ⟨1, 2, 3, [['r', 'c'], ['1']], [['b', '5']]⟩ = "1.2.3-rc.1+b5" := by decide
example : render ⟨1, 3, 0, [], []⟩ = "1.3.0" := by decide

end Semver
